import Mathlib

/-!
# RandomNumber: a linear congruential generator and its time-based seed

Shallow embedding of `src/RandomNumber.c`.

Machine integers are carried by `Nat` and `Int`.  `uint32_t` and `unsigned int`
are 32 bits wide and `int` is a 32-bit two's complement integer, so a value of
type `int` lies in `[-2^31, 2^31 - 1]`.  Every unsigned operation of the source
is followed by an explicit reduction modulo `2^32`; a conversion of a signed
value to `unsigned int` is the reduction of that value modulo `2^32`.

The pointer parameter `uint32_t *seed` is embedded twice: `lcg_random` passes
the pointed-to value in and hands the stored value back next to the returned
one, and `lcg_random_at` runs the same body on an explicit machine state in
which the seed is one cell among others.

The real-time clock is an input: a reading is a `struct timespec`, seconds and
nanoseconds, and `clock_gettime` stores it into the `struct timeval` that
`seedByTime` declares.
-/

namespace RandomNumber

/-! ## Machine arithmetic -/

/-- Number of values of a 32-bit unsigned integer. -/
def UINT32_SIZE : Nat := 4294967296

/-- Largest value of the 32-bit type `int`. -/
def INT_MAX : Int := 2147483647

/-- Smallest value of the 32-bit type `int`. -/
def INT_MIN : Int := -2147483648

/-- Result of an arithmetic operation carried out in `unsigned int`:
the mathematical result reduced modulo `2^32`. -/
def wrap32 (n : Nat) : Nat := n % UINT32_SIZE

/-- Conversion of a signed integer value to `unsigned int` (the usual arithmetic
conversion applied to an `int` operand meeting an unsigned one, and the cast
`(uint32_t) x`): the value reduced modulo `2^32`. -/
def toU32 (x : Int) : Nat := (x % (UINT32_SIZE : Int)).toNat

/-! ## Constants of `lcg_random` -/

/-- Multiplier constant of the generator (`#define MULTIPLIER`). -/
def MULTIPLIER : Nat := 1664525

/-- Increment constant of the generator (`#define INCREMENT`). -/
def INCREMENT : Nat := 1013904223

/-- Modulus of the generator (`#define MODULUS`), a 64-bit constant. -/
def MODULUS : Nat := 4294967296

/-! ## The generator -/

/-- Outcome of one call of `lcg_random`: the value stored through the `seed`
pointer and the value returned. -/
structure LcgResult where
  seed : Nat
  value : Nat
  deriving DecidableEq

/-- Value stored into `*seed` by
`*seed = (MULTIPLIER * (*seed) + INCREMENT) % MODULUS;`.
The product and the sum are computed in `unsigned int` and wrap, the remainder
by the 64-bit `MODULUS` is taken on the widened sum, and the assignment
converts back to `uint32_t`. -/
def lcg_seed_update (seed : Nat) : Nat :=
  wrap32 (wrap32 (wrap32 (MULTIPLIER * seed) + INCREMENT) % MODULUS)

/-- One call `lcg_random(&seed, upLimit)`.  The seed is updated first; the
return expression `(*seed % upLimit) + 1` converts `upLimit` to `unsigned int`,
takes the remainder and adds one in `unsigned int`.  A remainder by zero has no
defined result, which is `none`. -/
def lcg_random (seed : Nat) (upLimit : Int) : Option LcgResult :=
  let seed1 := lcg_seed_update seed
  let lim := toU32 upLimit
  if lim = 0 then none
  else some { seed := seed1, value := wrap32 (seed1 % lim + 1) }

/-- Successive calls of `lcg_random` on one seed variable, one call per entry of
`limits`: the returned values in call order, and the seed left behind. -/
def lcg_sequence (seed : Nat) : List Int → Option (List Nat × Nat)
  | [] => some ([], seed)
  | upLimit :: rest =>
    match lcg_random seed upLimit with
    | none => none
    | some r =>
      match lcg_sequence r.seed rest with
      | none => none
      | some (values, last) => some (r.value :: values, last)

/-! ## The generator on a machine state -/

/-- Content of a `struct timeval`: the fields `tv_sec` and `tv_usec`. -/
structure Timeval where
  tv_sec : Int
  tv_usec : Int
  deriving DecidableEq

/-- Content of a `struct timespec`, the reading the real-time clock delivers:
the whole seconds since the Unix epoch and the nanoseconds into the current
second, `0 <= tv_nsec < 1000000000`. -/
structure Timespec where
  tv_sec : Int
  tv_nsec : Int
  deriving DecidableEq

/-- State of the machine around a call: the `uint32_t` objects in memory, by
address, and the reading the real-time clock delivers. -/
structure Machine where
  mem : Nat → Nat
  clock : Timespec

/-- One call `lcg_random(seed, upLimit)` where `seed` is the address of the seed
object: the body reads the cell at `seed`, stores the updated seed into the
same cell and returns the mapped value. -/
def lcg_random_at (m : Machine) (seed : Nat) (upLimit : Int) : Option (Machine × Nat) :=
  match lcg_random (m.mem seed) upLimit with
  | none => none
  | some r => some ({ m with mem := Function.update m.mem seed r.seed }, r.value)

/-- Successive calls `lcg_random(seed, upLimit)` on a machine state, all on the
same seed address, one call per entry of `limits`. -/
def lcg_calls (m : Machine) (seed : Nat) : List Int → Option (Machine × List Nat)
  | [] => some (m, [])
  | upLimit :: rest =>
    match lcg_random_at m seed upLimit with
    | none => none
    | some (m1, v) =>
      match lcg_calls m1 seed rest with
      | none => none
      | some (m2, values) => some (m2, v :: values)

/-! ## The time-based seed -/

/-- Effect of `clock_gettime(CLOCK_REALTIME, &tv)` on the local
`struct timeval tv` when the clock reads `now`.  The call stores a
`struct timespec` through the pointer it is given; both structs are two integer
fields of the same size one after the other, so `tv.tv_sec` receives the seconds
and `tv.tv_usec` receives the nanoseconds. -/
def clock_gettime (now : Timespec) : Timeval :=
  { tv_sec := now.tv_sec, tv_usec := now.tv_nsec }

/-- One call of `seedByTime()` when the clock reads `now`: `tv` is filled by
`clock_gettime`, then
`(uint32_t) (tv.tv_sec) * 1000 + (uint32_t) (tv.tv_usec) / 1000` is returned.
Each cast applies to the field alone, before the multiplication and the
division; product and sum are computed in `unsigned int`. -/
def seedByTime (now : Timespec) : Nat :=
  let tv := clock_gettime now
  wrap32 (wrap32 (toU32 tv.tv_sec * 1000) + toU32 tv.tv_usec / 1000)

/-- Call of `seedByTime()` on a machine state: the clock reading is the only
part of the state it looks at. -/
def seedByTime_at (m : Machine) : Nat := seedByTime m.clock

/-- Milliseconds since the Unix epoch at a clock reading, as an unbounded
integer, the value the documentation of `seedByTime` names:
`tv_sec * 1000 + floor(usec / 1000)`, where the sub-second component in
microseconds is `usec = floor(tv_nsec / 1000)`. -/
def millisSinceEpoch (now : Timespec) : Int :=
  now.tv_sec * 1000 + (now.tv_nsec / 1000) / 1000

/-! ## Counting seeds and inverting the seed update -/

/-- Number of seeds, among the `2^32` values of `uint32_t`, for which the call
`lcg_random(&seed, upLimit)` returns `k`. -/
def seedCount (upLimit : Int) (k : Nat) : Nat :=
  ((Finset.range UINT32_SIZE).filter
    (fun seed => Option.map LcgResult.value (lcg_random seed upLimit) = some k)).card

/-- Inverse of the seed update on 32-bit values, a proof device that is not in
the source: `4276115653` is the inverse of `MULTIPLIER` modulo `2^32`, and the
increment is taken off before multiplying by it. -/
def lcg_seed_inverse (t : Nat) : Nat :=
  (4276115653 * (t + (UINT32_SIZE - INCREMENT))) % UINT32_SIZE

/-! ## Auxiliary facts -/

/-- The three wrapping steps of the seed update amount to one reduction of the
exact value `1664525 * seed + 1013904223` modulo `2^32`. -/
theorem lcg_seed_update_eq (seed : Nat) :
    lcg_seed_update seed = (1664525 * seed + 1013904223) % 4294967296 := by
  simp only [lcg_seed_update, wrap32, MULTIPLIER, INCREMENT, MODULUS, UINT32_SIZE]
  omega

/-- The updated seed is a 32-bit value. -/
theorem lcg_seed_update_lt (seed : Nat) : lcg_seed_update seed < UINT32_SIZE := by
  rw [lcg_seed_update_eq]
  simp only [UINT32_SIZE]
  omega

/-- A positive `int` keeps its value when converted to `unsigned int`. -/
theorem toU32_of_pos (x : Int) (h1 : 1 ≤ x) (h2 : x ≤ INT_MAX) : toU32 x = x.toNat := by
  simp only [INT_MAX] at h2
  simp only [toU32, UINT32_SIZE]
  omega

/-- A negative `int` converts to `2^32` plus its value. -/
theorem toU32_of_neg (x : Int) (h1 : INT_MIN ≤ x) (h2 : x < 0) :
    toU32 x = (4294967296 + x).toNat := by
  simp only [INT_MIN] at h1
  simp only [toU32, UINT32_SIZE]
  omega

/-- For a positive limit the call returns, with the updated seed stored and the
remainder of the updated seed plus one returned, the addition not wrapping. -/
theorem lcg_random_of_pos (seed : Nat) (upLimit : Int) (h1 : 1 ≤ upLimit)
    (h2 : upLimit ≤ INT_MAX) :
    lcg_random seed upLimit =
      some { seed := lcg_seed_update seed,
             value := lcg_seed_update seed % upLimit.toNat + 1 } := by
  have hlim := toU32_of_pos upLimit h1 h2
  have hpos : 0 < upLimit.toNat := by omega
  have hmod := Nat.mod_lt (lcg_seed_update seed) hpos
  have hne : ¬ (upLimit.toNat = 0) := by omega
  simp only [INT_MAX] at h2
  simp only [lcg_random, hlim, hne, if_false, wrap32, UINT32_SIZE]
  have hsmall : lcg_seed_update seed % upLimit.toNat + 1 < 4294967296 := by omega
  rw [Nat.mod_eq_of_lt hsmall]

/-! ## The step function: range, seed update, output mapping -/

/-- C1: for every 32-bit seed and every limit with `1 <= upLimit <= 2^31 - 1`
the call returns a value, and that value lies in `[1, upLimit]`. -/
theorem lcg_random_range (seed : Nat) (upLimit : Int) (_hs : seed < UINT32_SIZE)
    (h1 : 1 ≤ upLimit) (h2 : upLimit ≤ INT_MAX) :
    ∃ r, lcg_random seed upLimit = some r ∧
      1 ≤ (r.value : Int) ∧ (r.value : Int) ≤ upLimit := by
  refine ⟨_, lcg_random_of_pos seed upLimit h1 h2, ?_, ?_⟩
  · simp only []
    omega
  · have hpos : 0 < upLimit.toNat := by omega
    have hmod := Nat.mod_lt (lcg_seed_update seed) hpos
    simp only []
    omega

/-- Instance of C1 at seed `12345` and limit `6`. -/
theorem lcg_random_range_witness :
    ∃ r, lcg_random 12345 6 = some r ∧ 1 ≤ (r.value : Int) ∧ (r.value : Int) ≤ 6 :=
  lcg_random_range 12345 6 (by decide) (by decide) (by decide)

/-- C2: for every 32-bit seed `s` and every limit of type `int` that is at least
one, the call returns and leaves `(1664525 * s + 1013904223) mod 2^32` in the
seed, the exact value reduced once; from `s = 2^32 - 1` the seed left is
`1012239698`. -/
theorem lcg_random_seed (s : Nat) (upLimit : Int) (_hs : s < UINT32_SIZE)
    (h1 : 1 ≤ upLimit) (h2 : upLimit ≤ INT_MAX) :
    ∃ r, lcg_random s upLimit = some r ∧
      r.seed = (1664525 * s + 1013904223) % 2 ^ 32 ∧
      (s = 2 ^ 32 - 1 → r.seed = 1012239698) := by
  refine ⟨_, lcg_random_of_pos s upLimit h1 h2, ?_, ?_⟩
  · simp only [lcg_seed_update_eq]
    norm_num
  · intro hmax
    simp only [lcg_seed_update_eq, hmax]
    norm_num

/-- Instance of C2 at the largest seed `2^32 - 1` and limit `100`. -/
theorem lcg_random_seed_witness :
    ∃ r, lcg_random 4294967295 100 = some r ∧
      r.seed = (1664525 * 4294967295 + 1013904223) % 2 ^ 32 ∧
      ((4294967295 : Nat) = 2 ^ 32 - 1 → r.seed = 1012239698) :=
  lcg_random_seed 4294967295 100 (by decide) (by decide) (by decide)

/-- C3: for every 32-bit seed `s` and every limit with
`1 <= upLimit <= 2^31 - 1` the call returns `(seed_next mod upLimit) + 1` as an
exact integer, where `seed_next = (1664525 * s + 1013904223) mod 2^32` is the
seed it has just stored. -/
theorem lcg_random_value (s : Nat) (upLimit : Int) (_hs : s < UINT32_SIZE)
    (h1 : 1 ≤ upLimit) (h2 : upLimit ≤ INT_MAX) :
    ∃ r, lcg_random s upLimit = some r ∧
      r.seed = (1664525 * s + 1013904223) % 2 ^ 32 ∧
      (r.value : Int) = ((r.seed : Nat) : Int) % upLimit + 1 := by
  refine ⟨_, lcg_random_of_pos s upLimit h1 h2, ?_, ?_⟩
  · simp only [lcg_seed_update_eq]
    norm_num
  · have hcast : ((upLimit.toNat : Nat) : Int) = upLimit := Int.toNat_of_nonneg (by omega)
    simp only []
    rw [Nat.cast_add, Int.natCast_mod, hcast]
    norm_num

/-- Instance of C3 at seed `1013904223` and limit `100`. -/
theorem lcg_random_value_witness :
    ∃ r, lcg_random 1013904223 100 = some r ∧
      r.seed = (1664525 * 1013904223 + 1013904223) % 2 ^ 32 ∧
      (r.value : Int) = ((r.seed : Nat) : Int) % 100 + 1 :=
  lcg_random_value 1013904223 100 (by decide) (by decide) (by decide)

/-! ## Limits that are not positive -/

/-- C4, refuted as stated: with seed `0` and the negative limit `-7` the call
does not fail; it stores `1013904223` and returns `1013904224`, the limit
having been converted to `2^32 - 7`. -/
theorem lcg_random_negative_limit_returns :
    (0 : Nat) < UINT32_SIZE ∧ (-7 : Int) ≤ 0 ∧ INT_MIN ≤ -7 ∧
      lcg_random 0 (-7) = some { seed := 1013904223, value := 1013904224 } := by
  decide

/-- C4, amended: for every 32-bit seed and every limit of type `int` that is
zero or negative, the call has no result exactly when the limit is zero, where
the remainder is taken by zero; for a negative limit it returns a value. -/
theorem lcg_random_nonpositive_limit (seed : Nat) (upLimit : Int)
    (_hs : seed < UINT32_SIZE) (h1 : INT_MIN ≤ upLimit) (h2 : upLimit ≤ 0) :
    lcg_random seed upLimit = none ↔ upLimit = 0 := by
  constructor
  · intro hnone
    by_contra hne
    have hneg : upLimit < 0 := by omega
    have hlim := toU32_of_neg upLimit h1 hneg
    simp only [INT_MIN] at h1
    have hnz : ¬ (toU32 upLimit = 0) := by omega
    simp [lcg_random, hnz] at hnone
  · intro hzero
    subst hzero
    simp [lcg_random, toU32, UINT32_SIZE]

/-- Instance of the amended C4 at seed `3` and limit `0`. -/
theorem lcg_random_nonpositive_limit_witness :
    lcg_random 3 0 = none ↔ (0 : Int) = 0 :=
  lcg_random_nonpositive_limit 3 0 (by decide) (by decide) (by decide)

/-! ## Fixed test values -/

/-- C5: the call with seed `0` and limit `100` leaves `1013904223` in the seed
and returns `24`. -/
theorem lcg_random_zero_hundred :
    lcg_random 0 100 = some { seed := 1013904223, value := 24 } := by
  decide

/-- C6: the call with seed `1013904223` and limit `100` leaves
`(1664525 * 1013904223 + 1013904223) mod 2^32 = 1196435762` in the seed and
returns `(1196435762 mod 100) + 1 = 63`; it is the second call of the chain
started at seed `0`. -/
theorem lcg_random_second_call :
    lcg_random 1013904223 100 = some { seed := 1196435762, value := 63 } ∧
      (1664525 * 1013904223 + 1013904223) % 2 ^ 32 = 1196435762 ∧
      1196435762 % 100 + 1 = 63 ∧
      lcg_sequence 0 [100, 100] = some ([24, 63], 1196435762) := by
  refine ⟨by decide, by norm_num, by norm_num, by decide⟩

/-- C7: for every 32-bit seed the call with limit `1` returns exactly `1`. -/
theorem lcg_random_limit_one (seed : Nat) (_hs : seed < UINT32_SIZE) :
    ∃ r, lcg_random seed 1 = some r ∧ r.value = 1 := by
  refine ⟨_, lcg_random_of_pos seed 1 (by decide) (by decide), ?_⟩
  simp [Nat.mod_one]

/-- Instance of C7 at the largest seed `2^32 - 1`. -/
theorem lcg_random_limit_one_witness :
    ∃ r, lcg_random 4294967295 1 = some r ∧ r.value = 1 :=
  lcg_random_limit_one 4294967295 (by decide)

/-! ## Determinism of a chain of calls -/

/-- C8: for every 32-bit initial seed and every finite list of positive limits,
the chain of calls threading the seed returns a list of values, one per limit,
and leaves a final seed that are fixed by the initial seed and the list alone:
every run, on whatever machine state holds that initial seed (other memory and
clock arbitrary), returns these same values and leaves this same final seed. -/
theorem lcg_calls_deterministic (seed0 : Nat) (limits : List Int)
    (hs : seed0 < UINT32_SIZE) (hl : ∀ u ∈ limits, 1 ≤ u ∧ u ≤ INT_MAX) :
    ∃ values last, lcg_sequence seed0 limits = some (values, last) ∧
      values.length = limits.length ∧
      ∀ (m : Machine) (p : Nat), m.mem p = seed0 →
        ∃ m1, lcg_calls m p limits = some (m1, values) ∧ m1.mem p = last := by
  induction limits generalizing seed0 with
  | nil => exact ⟨[], seed0, rfl, rfl, fun m p hm => ⟨m, rfl, hm⟩⟩
  | cons u rest ih =>
    have hu := hl u (List.mem_cons_self u rest)
    have hstep := lcg_random_of_pos seed0 u hu.1 hu.2
    obtain ⟨values, last, hseq, hlen, hall⟩ :=
      ih (lcg_seed_update seed0) (lcg_seed_update_lt seed0)
        (fun v hv => hl v (List.mem_cons_of_mem u hv))
    refine ⟨(lcg_seed_update seed0 % u.toNat + 1) :: values, last, ?_, ?_, ?_⟩
    · simp [lcg_sequence, hstep, hseq]
    · simp [hlen]
    · intro m p hm
      obtain ⟨m1, hcalls, hlast⟩ :=
        hall { m with mem := Function.update m.mem p (lcg_seed_update seed0) } p (by simp)
      refine ⟨m1, ?_, hlast⟩
      simp [lcg_calls, lcg_random_at, hm, hstep, hcalls]

/-- Instance of C8 at initial seed `0` and the limits `100, 100, 2`. -/
theorem lcg_calls_deterministic_witness :
    ∃ values last, lcg_sequence 0 [100, 100, 2] = some (values, last) ∧
      values.length = [(100 : Int), 100, 2].length ∧
      ∀ (m : Machine) (p : Nat), m.mem p = 0 →
        ∃ m1, lcg_calls m p [100, 100, 2] = some (m1, values) ∧ m1.mem p = last :=
  lcg_calls_deterministic 0 [100, 100, 2] (by decide) (by decide)

/-! ## The time-based seed -/

/-- What `seedByTime` computes: at a clock reading with
`0 <= tv_nsec < 1000000000` the seed is `(tv_sec * 1000 + tv_nsec / 1000)`
reduced modulo `2^32`, the seconds scaled to milliseconds plus the sub-second
part in microseconds. -/
theorem seedByTime_eq (now : Timespec) (h1 : 0 ≤ now.tv_nsec)
    (h2 : now.tv_nsec < 1000000000) :
    (seedByTime now : Int) = (now.tv_sec * 1000 + now.tv_nsec / 1000) % 4294967296 := by
  simp only [seedByTime, clock_gettime, wrap32, toU32, UINT32_SIZE]
  push_cast
  omega

/-- C9, broken by the code: at the clock reading `1700000000` s and
`999999000` ns, whose sub-second component is `999999` microseconds,
`seedByTime` returns `3488918079`, while the milliseconds since the epoch
`1700000000 * 1000 + floor(999999 / 1000)` reduced modulo `2^32` are
`3487919079`. -/
theorem seedByTime_not_millis :
    seedByTime { tv_sec := 1700000000, tv_nsec := 999999000 } = 3488918079 ∧
      (999999000 : Int) / 1000 = 999999 ∧
      millisSinceEpoch { tv_sec := 1700000000, tv_nsec := 999999000 } % 2 ^ 32 =
        3487919079 ∧
      ((1700000000 : Int) * 1000 + 999999 / 1000) % 2 ^ 32 = 3487919079 := by
  decide

/-- C10, broken by the code: the clock readings `1700000000` s `1000000` ns and
`1700000001` s `0` ns, with sub-second components `1000` and `0` microseconds,
have the millisecond counts `1700000000001` and `1700000001000`, which differ
by `999`, yet `seedByTime` returns `3487919080` for both. -/
theorem seedByTime_collision :
    seedByTime { tv_sec := 1700000000, tv_nsec := 1000000 } = 3487919080 ∧
      seedByTime { tv_sec := 1700000001, tv_nsec := 0 } = 3487919080 ∧
      millisSinceEpoch { tv_sec := 1700000000, tv_nsec := 1000000 } = 1700000000001 ∧
      millisSinceEpoch { tv_sec := 1700000001, tv_nsec := 0 } = 1700000001000 ∧
      |(1700000000001 : Int) - 1700000001000| < 2 ^ 32 := by
  decide

/-! ## The seed update as a permutation of the 32-bit values -/

/-- The inverse map lands in the 32-bit values. -/
theorem lcg_seed_inverse_lt (t : Nat) : lcg_seed_inverse t < UINT32_SIZE := by
  simp only [lcg_seed_inverse, UINT32_SIZE, INCREMENT]
  omega

/-- Undoing an update gives the seed back. -/
theorem lcg_seed_inverse_update (s : Nat) (hs : s < UINT32_SIZE) :
    lcg_seed_inverse (lcg_seed_update s) = s := by
  rw [lcg_seed_update_eq]
  simp only [lcg_seed_inverse, UINT32_SIZE, INCREMENT] at *
  omega

/-- Updating an undone value gives the value back. -/
theorem lcg_seed_update_inverse (t : Nat) (ht : t < UINT32_SIZE) :
    lcg_seed_update (lcg_seed_inverse t) = t := by
  rw [lcg_seed_update_eq]
  simp only [lcg_seed_inverse, UINT32_SIZE, INCREMENT] at *
  omega

/-! ## Uniformity of the outputs over all seeds -/

/-- Number of seeds returning `k`, for a positive limit and `k` in
`[1, upLimit]`: the quotient of `2^32` by the limit, plus one when `k - 1` is
below the remainder of `2^32` by the limit.  The seed update permutes the
32-bit values, so the seeds are counted through their updated values. -/
theorem seedCount_eq (upLimit : Int) (h1 : 1 ≤ upLimit) (h2 : upLimit ≤ INT_MAX)
    (k : Nat) (hk1 : 1 ≤ k) (hk2 : k ≤ upLimit.toNat) :
    seedCount upLimit k =
      UINT32_SIZE / upLimit.toNat +
        if k - 1 < UINT32_SIZE % upLimit.toNat then 1 else 0 := by
  have hpos : 0 < upLimit.toNat := by omega
  have hkmod : (k - 1) % upLimit.toNat = k - 1 := Nat.mod_eq_of_lt (by omega)
  have hcount := Nat.count_modEq_card UINT32_SIZE hpos (k - 1)
  rw [hkmod, Nat.count_eq_card_filter_range] at hcount
  rw [← hcount]
  unfold seedCount
  apply Finset.card_bij (fun s _ => lcg_seed_update s)
  · intro s hs
    rw [Finset.mem_filter] at hs ⊢
    refine ⟨Finset.mem_range.mpr (lcg_seed_update_lt s), ?_⟩
    have hval := hs.2
    rw [lcg_random_of_pos s upLimit h1 h2] at hval
    simp only [Option.map_some', Option.some.injEq] at hval
    unfold Nat.ModEq
    rw [hkmod]
    omega
  · intro s1 hs1 s2 hs2 heq
    have hr1 := Finset.mem_range.mp (Finset.mem_filter.mp hs1).1
    have hr2 := Finset.mem_range.mp (Finset.mem_filter.mp hs2).1
    rw [← lcg_seed_inverse_update s1 hr1, ← lcg_seed_inverse_update s2 hr2, heq]
  · intro t ht
    rw [Finset.mem_filter] at ht
    have htr := Finset.mem_range.mp ht.1
    have htm := ht.2
    unfold Nat.ModEq at htm
    rw [hkmod] at htm
    refine ⟨lcg_seed_inverse t, ?_, lcg_seed_update_inverse t htr⟩
    rw [Finset.mem_filter]
    refine ⟨Finset.mem_range.mpr (lcg_seed_inverse_lt t), ?_⟩
    rw [lcg_random_of_pos _ upLimit h1 h2, lcg_seed_update_inverse t htr]
    simp only [Option.map_some', Option.some.injEq]
    omega

/-- C11: for every limit with `1 <= upLimit <= 2^31 - 1`, the number of seeds,
among all `2^32`, for which the call returns `k` is the same for every `k` in
`[1, upLimit]` if and only if `upLimit` divides `2^32`, that is if and only if
`upLimit` is a power of two. -/
theorem seedCount_uniform_iff (upLimit : Int) (h1 : 1 ≤ upLimit) (h2 : upLimit ≤ INT_MAX) :
    ((∀ k1 k2 : Nat, 1 ≤ k1 → (k1 : Int) ≤ upLimit → 1 ≤ k2 → (k2 : Int) ≤ upLimit →
        seedCount upLimit k1 = seedCount upLimit k2) ↔ upLimit ∣ 2 ^ 32) ∧
      (upLimit ∣ 2 ^ 32 ↔ ∃ e : Nat, upLimit = 2 ^ e) := by
  have hpos : 0 < upLimit.toNat := by omega
  have hcast : ((upLimit.toNat : Nat) : Int) = upLimit := Int.toNat_of_nonneg (by omega)
  have hmodlt := Nat.mod_lt UINT32_SIZE hpos
  have hdvd : upLimit ∣ 2 ^ 32 ↔ upLimit.toNat ∣ UINT32_SIZE := by
    rw [← Int.natCast_dvd_natCast, hcast]
    simp only [UINT32_SIZE]
    norm_num
  constructor
  · rw [hdvd]
    constructor
    · intro huni
      have h := huni 1 upLimit.toNat (le_refl 1) (by omega) (by omega) (by omega)
      rw [seedCount_eq upLimit h1 h2 1 (le_refl 1) (by omega),
        seedCount_eq upLimit h1 h2 upLimit.toNat (by omega) (le_refl _)] at h
      have hno : ¬ (upLimit.toNat - 1 < UINT32_SIZE % upLimit.toNat) := by omega
      rw [if_neg hno] at h
      apply Nat.dvd_of_mod_eq_zero
      by_contra hne
      have hyes : 1 - 1 < UINT32_SIZE % upLimit.toNat := by omega
      rw [if_pos hyes] at h
      omega
    · intro hd k1 k2 hk1 hk1u hk2 hk2u
      have hz := Nat.mod_eq_zero_of_dvd hd
      rw [seedCount_eq upLimit h1 h2 k1 hk1 (by omega),
        seedCount_eq upLimit h1 h2 k2 hk2 (by omega), hz]
      simp
  · rw [hdvd]
    constructor
    · intro hd
      have hd2 : upLimit.toNat ∣ 2 ^ 32 := by
        simp only [UINT32_SIZE] at hd
        norm_num
        exact hd
      obtain ⟨e, _, he⟩ := (Nat.dvd_prime_pow Nat.prime_two).mp hd2
      refine ⟨e, ?_⟩
      rw [← hcast, he]
      norm_num
    · rintro ⟨e, he⟩
      have hnat : upLimit.toNat = 2 ^ e := by
        have hc : ((upLimit.toNat : Nat) : Int) = ((2 ^ e : Nat) : Int) := by
          rw [hcast, he]
          norm_num
        exact_mod_cast hc
      have hle : e ≤ 32 := by
        by_contra hgt
        have hbig : 2 ^ 33 ≤ 2 ^ e := Nat.pow_le_pow_right (by norm_num) (by omega)
        simp only [INT_MAX] at h2
        omega
      rw [hnat]
      simp only [UINT32_SIZE]
      have h32 : (4294967296 : Nat) = 2 ^ 32 := by norm_num
      rw [h32]
      exact pow_dvd_pow 2 hle

/-- Instance of C11 at the limit `6`, which does not divide `2^32`. -/
theorem seedCount_uniform_iff_witness :
    ((∀ k1 k2 : Nat, 1 ≤ k1 → (k1 : Int) ≤ 6 → 1 ≤ k2 → (k2 : Int) ≤ 6 →
        seedCount 6 k1 = seedCount 6 k2) ↔ (6 : Int) ∣ 2 ^ 32) ∧
      ((6 : Int) ∣ 2 ^ 32 ↔ ∃ e : Nat, (6 : Int) = 2 ^ e) :=
  seedCount_uniform_iff 6 (by decide) (by decide)

/-! ## Period of the seed sequence -/

/-- Two-adic core of the period: since the multiplier is `1` modulo `4`, the
quotient `S` of `1664525^n - 1` by `1664524` is divisible by `2^32` exactly when
`n` is. -/
theorem two_pow_dvd_geom (n : Nat) (S : Int)
    (hS : (1664525 : Int) ^ n - 1 = 1664524 * S) :
    (2 : Int) ^ 32 ∣ S ↔ (2 : Int) ^ 32 ∣ (n : Int) := by
  have hlte := Int.two_pow_sub_pow' (x := 1664525) (y := 1) n (by norm_num) (by norm_num)
  rw [one_pow, hS, emultiplicity_mul Int.prime_two] at hlte
  have h2 : emultiplicity (2 : Int) 1664524 = ((2 : Nat) : ENat) := by
    rw [emultiplicity_eq_coe]
    constructor <;> norm_num
  have h3 : ((1664525 : Int) - 1) = 1664524 := by norm_num
  rw [h3, h2] at hlte
  have hcancel := WithTop.add_left_cancel (ENat.coe_ne_top 2) hlte
  rw [pow_dvd_iff_le_emultiplicity, pow_dvd_iff_le_emultiplicity, hcancel]

/-- Closed form of the iterated seed update, multiplied through by
`MULTIPLIER - 1`: modulo `1664524 * 2^32` the quantity `1664524 * x + 1013904223`
is multiplied by `1664525` at each update. -/
theorem lcg_iterate_closed (n s : Nat) :
    ((1664524 : Int) * 4294967296) ∣
      (1664524 * ((lcg_seed_update^[n] s : Nat) : Int) + 1013904223) -
        1664525 ^ n * (1664524 * (s : Int) + 1013904223) := by
  induction n with
  | zero => simp
  | succ n ih =>
    rw [Function.iterate_succ_apply']
    obtain ⟨k, hk⟩ := ih
    generalize lcg_seed_update^[n] s = x at hk ⊢
    have hupd : ((lcg_seed_update x : Nat) : Int) =
        (1664525 * (x : Int) + 1013904223) -
          4294967296 * ((1664525 * (x : Int) + 1013904223) / 4294967296) := by
      rw [lcg_seed_update_eq]
      push_cast
      omega
    refine ⟨1664525 * k - (1664525 * (x : Int) + 1013904223) / 4294967296, ?_⟩
    rw [hupd, pow_succ]
    linear_combination 1664525 * hk

/-- Every iterate of the seed update from a 32-bit seed is a 32-bit value. -/
theorem lcg_iterate_lt (n s : Nat) (hs : s < UINT32_SIZE) :
    lcg_seed_update^[n] s < UINT32_SIZE := by
  cases n with
  | zero => exact hs
  | succ n =>
    rw [Function.iterate_succ_apply']
    exact lcg_seed_update_lt _

/-- A 32-bit seed comes back after `n` updates exactly when `2^32` divides
`n`. -/
theorem lcg_iterate_fixed_iff (n s : Nat) (hs : s < UINT32_SIZE) :
    lcg_seed_update^[n] s = s ↔ UINT32_SIZE ∣ n := by
  have hlt := lcg_iterate_lt n s hs
  have hclosed := lcg_iterate_closed n s
  obtain ⟨S, hS⟩ := sub_dvd_pow_sub_pow (1664525 : Int) 1 n
  rw [one_pow] at hS
  have hpow : (1664525 : Int) ^ n = 1 + 1664524 * S := by linarith
  have hgeom := two_pow_dvd_geom n S (by linarith)
  have h232 : (2 : Int) ^ 32 = 4294967296 := by norm_num
  rw [h232] at hgeom
  generalize lcg_seed_update^[n] s = x at hlt hclosed ⊢
  simp only [UINT32_SIZE] at hs hlt ⊢
  have hcop : IsCoprime (4294967296 : Int) (1664524 * (s : Int) + 1013904223) := by
    rw [← h232]
    apply IsCoprime.pow_left
    exact ⟨-(832262 * (s : Int) + 506952111), 1, by ring⟩
  rw [hpow] at hclosed
  have hclosed2 : (4294967296 : Int) ∣
      ((x : Int) - s) - S * (1664524 * (s : Int) + 1013904223) := by
    have hmul : (1664524 : Int) * 4294967296 ∣
        1664524 * (((x : Int) - s) - S * (1664524 * (s : Int) + 1013904223)) := by
      convert hclosed using 1
      ring
    exact (mul_dvd_mul_iff_left (by norm_num)).mp hmul
  have hnat : (4294967296 : Int) ∣ (n : Int) ↔ 4294967296 ∣ n := by
    exact_mod_cast Int.natCast_dvd_natCast (m := 4294967296) (n := n)
  rw [← hnat, ← hgeom]
  constructor
  · intro hx
    rw [hx, sub_self, zero_sub, dvd_neg] at hclosed2
    exact hcop.dvd_of_dvd_mul_right hclosed2
  · intro hdvd
    have h1 : (4294967296 : Int) ∣ S * (1664524 * (s : Int) + 1013904223) :=
      Dvd.dvd.mul_right hdvd _
    have h0 : (4294967296 : Int) ∣ (x : Int) - s := by
      have hsum := dvd_add hclosed2 h1
      rwa [sub_add_cancel] at hsum
    obtain ⟨m, hm⟩ := h0
    omega

/-- C12: the seed update has full period: for every 32-bit seed `s` and every
`n >= 1`, `n` updates from `s` give `s` back exactly when `2^32` divides `n`;
hence the first `2^32` seeds of the sequence are pairwise different and every
32-bit value is among them. -/
theorem lcg_seed_update_full_period (s n : Nat) (hs : s < UINT32_SIZE) (_hn : 1 ≤ n) :
    (lcg_seed_update^[n] s = s ↔ UINT32_SIZE ∣ n) ∧
      (∀ i j, i < j → j < UINT32_SIZE →
        lcg_seed_update^[i] s ≠ lcg_seed_update^[j] s) ∧
      ∀ t, t < UINT32_SIZE → ∃ i, i < UINT32_SIZE ∧ lcg_seed_update^[i] s = t := by
  have hdistinct : ∀ i j, i < j → j < UINT32_SIZE →
      lcg_seed_update^[i] s ≠ lcg_seed_update^[j] s := by
    intro i j hij hj heq
    have hsplit : lcg_seed_update^[j] s =
        lcg_seed_update^[j - i] (lcg_seed_update^[i] s) := by
      rw [← Function.iterate_add_apply, Nat.sub_add_cancel (le_of_lt hij)]
    rw [hsplit] at heq
    have hdvd := (lcg_iterate_fixed_iff (j - i) _ (lcg_iterate_lt i s hs)).mp heq.symm
    have hle := Nat.le_of_dvd (by omega) hdvd
    omega
  refine ⟨lcg_iterate_fixed_iff n s hs, hdistinct, ?_⟩
  intro t ht
  have hinj : Set.InjOn (fun i => lcg_seed_update^[i] s)
      ((Finset.range UINT32_SIZE : Finset Nat) : Set Nat) := by
    intro i hi j hj hij
    have hi2 : i < UINT32_SIZE := Finset.mem_range.mp hi
    have hj2 : j < UINT32_SIZE := Finset.mem_range.mp hj
    by_contra hne
    rcases Nat.lt_or_gt_of_ne hne with hlt | hgt
    · exact hdistinct i j hlt hj2 hij
    · exact hdistinct j i hgt hi2 hij.symm
  have hsub : (Finset.range UINT32_SIZE).image (fun i => lcg_seed_update^[i] s) ⊆
      Finset.range UINT32_SIZE := by
    intro x hx
    obtain ⟨i, _, hix⟩ := Finset.mem_image.mp hx
    rw [← hix]
    exact Finset.mem_range.mpr (lcg_iterate_lt i s hs)
  have hcard : (Finset.range UINT32_SIZE).card ≤
      ((Finset.range UINT32_SIZE).image (fun i => lcg_seed_update^[i] s)).card := by
    rw [Finset.card_image_of_injOn hinj]
  have heq := Finset.eq_of_subset_of_card_le hsub hcard
  have hmem : t ∈ (Finset.range UINT32_SIZE).image (fun i => lcg_seed_update^[i] s) := by
    rw [heq]
    exact Finset.mem_range.mpr ht
  obtain ⟨i, hi, hit⟩ := Finset.mem_image.mp hmem
  exact ⟨i, Finset.mem_range.mp hi, hit⟩

/-- Instance of C12 at seed `0` and `n = 2^32`. -/
theorem lcg_seed_update_full_period_witness :
    (lcg_seed_update^[4294967296] 0 = 0 ↔ UINT32_SIZE ∣ 4294967296) ∧
      (∀ i j, i < j → j < UINT32_SIZE →
        lcg_seed_update^[i] 0 ≠ lcg_seed_update^[j] 0) ∧
      ∀ t, t < UINT32_SIZE → ∃ i, i < UINT32_SIZE ∧ lcg_seed_update^[i] 0 = t :=
  lcg_seed_update_full_period 0 4294967296 (by decide) (by decide)

/-! ## Injectivity and surjectivity of the seed update -/

/-- C13: the seed update is a bijection on the 32-bit seeds: two different
seeds are updated to different seeds, and every 32-bit value is the updated
seed of exactly one 32-bit seed. -/
theorem lcg_seed_update_bijective (s1 s2 t : Nat) (h1 : s1 < UINT32_SIZE)
    (h2 : s2 < UINT32_SIZE) (ht : t < UINT32_SIZE) :
    (s1 ≠ s2 → lcg_seed_update s1 ≠ lcg_seed_update s2) ∧
      ∃! s, s < UINT32_SIZE ∧ lcg_seed_update s = t := by
  constructor
  · intro hne heq
    apply hne
    rw [← lcg_seed_inverse_update s1 h1, ← lcg_seed_inverse_update s2 h2, heq]
  · refine ⟨lcg_seed_inverse t, ⟨lcg_seed_inverse_lt t, lcg_seed_update_inverse t ht⟩, ?_⟩
    rintro s ⟨hs, hst⟩
    rw [← hst, lcg_seed_inverse_update s hs]

/-- Instance of C13 at the seeds `0` and `1` and the target value `0`. -/
theorem lcg_seed_update_bijective_witness :
    ((0 : Nat) ≠ 1 → lcg_seed_update 0 ≠ lcg_seed_update 1) ∧
      ∃! s, s < UINT32_SIZE ∧ lcg_seed_update s = 0 :=
  lcg_seed_update_bijective 0 1 0 (by decide) (by decide) (by decide)

/-! ## Negative limits -/

/-- C14: for every 32-bit seed and every negative limit
`-2^31 <= upLimit <= -1` the call signals nothing and returns: the limit is
converted to `2^32 + upLimit` and the value returned is
`(seed_next mod (2^32 + upLimit)) + 1`, which lies in `[1, 2^32 + upLimit]`;
with seed `0` and limit `-1` it is `1013904224`. -/
theorem lcg_random_neg_limit_value (seed : Nat) (upLimit : Int)
    (_hs : seed < UINT32_SIZE) (h1 : INT_MIN ≤ upLimit) (h2 : upLimit ≤ -1) :
    ∃ r, lcg_random seed upLimit = some r ∧
      toU32 upLimit = (2 ^ 32 + upLimit).toNat ∧
      r.seed = (1664525 * seed + 1013904223) % 2 ^ 32 ∧
      (r.value : Int) = (r.seed : Int) % (2 ^ 32 + upLimit) + 1 ∧
      1 ≤ (r.value : Int) ∧ (r.value : Int) ≤ 2 ^ 32 + upLimit ∧
      (seed = 0 → upLimit = -1 → r.value = 1013904224) := by
  have hlim := toU32_of_neg upLimit h1 (by omega)
  have hupd := lcg_seed_update_eq seed
  simp only [INT_MIN] at h1
  have hpos : 0 < (4294967296 + upLimit).toNat := by omega
  have hmod := Nat.mod_lt (lcg_seed_update seed) hpos
  have hnz : ¬ ((4294967296 + upLimit).toNat = 0) := by omega
  have hsmall : lcg_seed_update seed % (4294967296 + upLimit).toNat + 1 < 4294967296 := by
    omega
  have hcast : (((4294967296 + upLimit).toNat : Nat) : Int) = 4294967296 + upLimit :=
    Int.toNat_of_nonneg (by omega)
  refine ⟨{ seed := lcg_seed_update seed,
            value := lcg_seed_update seed % (4294967296 + upLimit).toNat + 1 },
    ?_, ?_, ?_, ?_, ?_, ?_, ?_⟩
  · simp only [lcg_random, hlim, hnz, if_false, wrap32, UINT32_SIZE]
    rw [Nat.mod_eq_of_lt hsmall]
  · rw [hlim]
    norm_num
  · simp only [hupd]
    norm_num
  · simp only []
    rw [Nat.cast_add, Int.natCast_mod, hcast]
    norm_num
  · simp only []
    omega
  · have hle : ((lcg_seed_update seed % (4294967296 + upLimit).toNat + 1 : Nat) : Int) ≤
        (((4294967296 + upLimit).toNat : Nat) : Int) := by exact_mod_cast hmod
    rw [hcast] at hle
    exact le_of_le_of_eq hle (by norm_num)
  · intro h0 hm
    subst h0
    subst hm
    simp only [hupd]
    decide

/-- Instance of C14 at seed `0` and limit `-1`, the example of the claim. -/
theorem lcg_random_neg_limit_value_witness :
    ∃ r, lcg_random 0 (-1) = some r ∧
      toU32 (-1) = (2 ^ 32 + (-1 : Int)).toNat ∧
      r.seed = (1664525 * 0 + 1013904223) % 2 ^ 32 ∧
      (r.value : Int) = (r.seed : Int) % (2 ^ 32 + (-1 : Int)) + 1 ∧
      1 ≤ (r.value : Int) ∧ (r.value : Int) ≤ 2 ^ 32 + (-1 : Int) ∧
      ((0 : Nat) = 0 → (-1 : Int) = -1 → r.value = 1013904224) :=
  lcg_random_neg_limit_value 0 (-1) (by decide) (by decide) (by decide)

/-! ## Parity of successive outputs -/

/-- Each update flips the lowest bit of the seed: multiplier and increment are
both odd. -/
theorem lcg_seed_update_parity (s : Nat) : lcg_seed_update s % 2 = 1 - s % 2 := by
  rw [lcg_seed_update_eq]
  omega

/-- C15: for every 32-bit seed and every even limit `upLimit >= 2`, two
successive calls threading the seed return values of opposite parity, each
update flipping the lowest bit of the seed; with `upLimit = 2` the two values
are `1` then `2`, or `2` then `1`. -/
theorem lcg_random_alternating_parity (seed : Nat) (upLimit : Int)
    (_hs : seed < UINT32_SIZE) (h1 : 2 ≤ upLimit) (h2 : upLimit ≤ INT_MAX)
    (he : upLimit % 2 = 0) :
    ∃ v1 v2 last, lcg_sequence seed [upLimit, upLimit] = some ([v1, v2], last) ∧
      v1 % 2 ≠ v2 % 2 ∧
      lcg_seed_update seed % 2 ≠ seed % 2 ∧
      last % 2 ≠ lcg_seed_update seed % 2 ∧
      (upLimit = 2 → (v1 = 1 ∧ v2 = 2) ∨ (v1 = 2 ∧ v2 = 1)) := by
  have hstep1 := lcg_random_of_pos seed upLimit (by omega) h2
  have hstep2 := lcg_random_of_pos (lcg_seed_update seed) upLimit (by omega) h2
  have hdvd : 2 ∣ upLimit.toNat := by omega
  have hm1 := Nat.mod_mod_of_dvd (lcg_seed_update seed) hdvd
  have hm2 := Nat.mod_mod_of_dvd (lcg_seed_update (lcg_seed_update seed)) hdvd
  have hp1 := lcg_seed_update_parity seed
  have hp2 := lcg_seed_update_parity (lcg_seed_update seed)
  refine ⟨lcg_seed_update seed % upLimit.toNat + 1,
    lcg_seed_update (lcg_seed_update seed) % upLimit.toNat + 1,
    lcg_seed_update (lcg_seed_update seed), ?_, ?_, ?_, ?_, ?_⟩
  · simp [lcg_sequence, hstep1, hstep2]
  · omega
  · omega
  · omega
  · intro h2eq
    subst h2eq
    have ht : (2 : Int).toNat = 2 := rfl
    rw [ht] at hm1 hm2 ⊢
    omega

/-- Instance of C15 at seed `5` and limit `2`. -/
theorem lcg_random_alternating_parity_witness :
    ∃ v1 v2 last, lcg_sequence 5 [2, 2] = some ([v1, v2], last) ∧
      v1 % 2 ≠ v2 % 2 ∧
      lcg_seed_update 5 % 2 ≠ 5 % 2 ∧
      last % 2 ≠ lcg_seed_update 5 % 2 ∧
      ((2 : Int) = 2 → (v1 = 1 ∧ v2 = 2) ∨ (v1 = 2 ∧ v2 = 1)) :=
  lcg_random_alternating_parity 5 2 (by decide) (by decide) (by decide) (by decide)

/-! ## The seed left behind does not depend on the limits -/

/-- After a chain of calls with positive limits the seed is the seed update
iterated once per call, whatever the limits are. -/
theorem lcg_sequence_last (limits : List Int)
    (hl : ∀ u ∈ limits, 1 ≤ u ∧ u ≤ INT_MAX) (seed : Nat) :
    ∃ values, lcg_sequence seed limits =
      some (values, lcg_seed_update^[limits.length] seed) := by
  induction limits generalizing seed with
  | nil => exact ⟨[], rfl⟩
  | cons u rest ih =>
    have hu := hl u (List.mem_cons_self u rest)
    have hstep := lcg_random_of_pos seed u hu.1 hu.2
    obtain ⟨values, hseq⟩ :=
      ih (fun v hv => hl v (List.mem_cons_of_mem u hv)) (lcg_seed_update seed)
    refine ⟨(lcg_seed_update seed % u.toNat + 1) :: values, ?_⟩
    rw [List.length_cons, Function.iterate_succ_apply]
    simp only [lcg_sequence, hstep, hseq]

/-- C16: the seed update does not depend on the limit: for every 32-bit seed
and any two limits `u1, u2 >= 1`, both calls return and leave the same updated
seed; consequently two chains of calls of the same length from the same seed
leave the same seed, whatever positive limits are passed. -/
theorem lcg_seed_independent_of_limit (seed : Nat) (u1 u2 : Int)
    (_hs : seed < UINT32_SIZE) (h1 : 1 ≤ u1 ∧ u1 ≤ INT_MAX)
    (h2 : 1 ≤ u2 ∧ u2 ≤ INT_MAX) :
    (∃ r1 r2, lcg_random seed u1 = some r1 ∧ lcg_random seed u2 = some r2 ∧
      r1.seed = r2.seed) ∧
    ∀ l1 l2 : List Int, (∀ u ∈ l1, 1 ≤ u ∧ u ≤ INT_MAX) →
      (∀ u ∈ l2, 1 ≤ u ∧ u ≤ INT_MAX) → l1.length = l2.length →
      ∃ values1 values2 last, lcg_sequence seed l1 = some (values1, last) ∧
        lcg_sequence seed l2 = some (values2, last) := by
  constructor
  · exact ⟨_, _, lcg_random_of_pos seed u1 h1.1 h1.2,
      lcg_random_of_pos seed u2 h2.1 h2.2, rfl⟩
  · intro l1 l2 hl1 hl2 hlen
    obtain ⟨values1, hv1⟩ := lcg_sequence_last l1 hl1 seed
    obtain ⟨values2, hv2⟩ := lcg_sequence_last l2 hl2 seed
    rw [← hlen] at hv2
    exact ⟨values1, values2, _, hv1, hv2⟩

/-- Instance of C16 at seed `0` and the limits `100` and `7`. -/
theorem lcg_seed_independent_of_limit_witness :
    (∃ r1 r2, lcg_random 0 100 = some r1 ∧ lcg_random 0 7 = some r2 ∧
      r1.seed = r2.seed) ∧
    ∀ l1 l2 : List Int, (∀ u ∈ l1, 1 ≤ u ∧ u ≤ INT_MAX) →
      (∀ u ∈ l2, 1 ≤ u ∧ u ≤ INT_MAX) → l1.length = l2.length →
      ∃ values1 values2 last, lcg_sequence 0 l1 = some (values1, last) ∧
        lcg_sequence 0 l2 = some (values2, last) :=
  lcg_seed_independent_of_limit 0 100 7 (by decide) (by decide) (by decide)

end RandomNumber
